import Mathlib

/-!
Verification development for the zktrie repository.

It shallowly embeds `types/hash.go` (field and `Hash` byte primitives)
and the sparse binary Merkle-trie state machine exercised by the test
layer, and proves the specification claims about them.

Modelling conventions for Go semantics: a `[]byte` value is a
`List Nat` whose elements are `< 256`; a Go string is a `List Char`;
`*big.Int` is `Int` (or `Nat` where only non-negative values occur); a
function returning `(T, error)` becomes a pair or an `Except` value; a
run-time panic is modelled as `Option.none`.
-/

namespace ZkTrie

/-- Error values surfaced by the hash/byte layer of `types/hash.go`. -/
inductive GoErr where
  | expectedBytes
  | notInField
  | cannotParse
  | hashNotInit
deriving DecidableEq

/-- The BN254 scalar-field modulus `Q` parsed in `init` of `types/hash.go`. -/
def Q : Int := 21888242871839275222246405745257275088548364400416034343698204186575808495617

/-- `CheckBigIntInField` from `types/hash.go`: `a.Cmp(Q) == -1`, that is `a < Q`. -/
def CheckBigIntInField (a : Int) : Bool := decide (a < Q)

/-- Modelled from the spec: `ReverseByteOrder` (called from `types/hash.go` but
defined outside the provided sources) reverses a byte slice; the spec states
that conversion between the little-endian array and the big-endian external
form "reverses the bytes". -/
def ReverseByteOrder (b : List Nat) : List Nat := b.reverse

/-- Go's builtin `copy(dst, src)`: the first `min |dst| |src|` entries of `dst`
are overwritten with those of `src`, the tail of `dst` is kept. -/
def goCopy (dst src : List Nat) : List Nat := src.take dst.length ++ dst.drop src.length

/-- `HashByteLen` from `types/hash.go`. -/
def HashByteLen : Nat := 32

/-- The `Hash` type of `types/hash.go`: a 32-byte array holding a field element
in little-endian byte order. -/
abbrev Hash : Type := { l : List Nat // l.length = HashByteLen ∧ ∀ x ∈ l, x < 256 }

/-- `HashZero`: the all-zero hash. -/
def HashZero : Hash :=
  ⟨List.replicate 32 0, rfl, fun x hx => by rcases List.eq_of_mem_replicate hx with rfl; decide⟩

theorem goCopy_length (dst src : List Nat) : (goCopy dst src).length = dst.length := by
  simp only [goCopy, List.length_append, List.length_take, List.length_drop]
  omega

theorem goCopy_mem {dst src : List Nat} {x : Nat} (hx : x ∈ goCopy dst src) :
    x ∈ src ∨ x ∈ dst := by
  rcases List.mem_append.1 hx with h | h
  · exact Or.inl (List.mem_of_mem_take h)
  · exact Or.inr (List.mem_of_mem_drop h)

theorem goCopy_full {dst src : List Nat} (h : src.length = dst.length) :
    goCopy dst src = src := by
  simp [goCopy, ← h]

/-- `Hash.Bytes`: copy into a fresh 32-byte array, then reverse
(little-endian storage to big-endian external form). -/
def Hash.Bytes (h : Hash) : List Nat := ReverseByteOrder (goCopy (List.replicate 32 0) h.val)

/-- `big.Int.SetBytes`: interpret a byte slice as a big-endian unsigned integer. -/
def setBytesBE (b : List Nat) : Nat := b.foldl (fun a d => a * 256 + d) 0

/-- `Hash.BigInt`: `new(big.Int).SetBytes(ReverseByteOrder(h[:]))`. -/
def Hash.BigInt (h : Hash) : Nat := setBytesBE (ReverseByteOrder h.val)

/-- `big.Int.Bytes`: the minimal big-endian byte representation of the
absolute value (empty for zero). -/
def bigIntBytes (n : Nat) : List Nat := (Nat.digits 256 n).reverse

theorem digits256_lt {n x : Nat} (hx : x ∈ Nat.digits 256 n) : x < 256 :=
  Nat.digits_lt_base (by norm_num) hx

/-- `NewHashFromBigInt`: `copy(r[:], ReverseByteOrder(b.Bytes()))`. -/
def NewHashFromBigInt (b : Int) : Hash :=
  ⟨goCopy (List.replicate 32 0) (ReverseByteOrder (bigIntBytes b.natAbs)), by
    refine ⟨goCopy_length _ _, fun x hx => ?_⟩
    rcases goCopy_mem hx with h | h
    · exact digits256_lt (List.mem_reverse.1 (List.mem_reverse.1 h))
    · rcases List.eq_of_mem_replicate h with rfl; decide⟩

/-- `NewHashFromBytes`: `copy(h[:], ReverseByteOrder(b))`; the byte bound is
carried as a side proof (`b` is a Go `[]byte`). -/
def NewHashFromBytes (b : List Nat) (hb : ∀ x ∈ b, x < 256) : Hash :=
  ⟨goCopy (List.replicate 32 0) (ReverseByteOrder b), by
    refine ⟨goCopy_length _ _, fun x hx => ?_⟩
    rcases goCopy_mem hx with h | h
    · exact hb x (List.mem_reverse.1 h)
    · rcases List.eq_of_mem_replicate h with rfl; decide⟩

/-- `NewHashFromCheckedBytes`: length check, then `NewHashFromBytes`. -/
def NewHashFromCheckedBytes (b : List Nat) (hb : ∀ x ∈ b, x < 256) : Except GoErr Hash :=
  if b.length = HashByteLen then .ok (NewHashFromBytes b hb) else .error .expectedBytes

/-- `dummyHash` from `types/hash.go`: returns `(0, hashNotInitErr)`. -/
def dummyHash (_ : List Int) : Int × Option GoErr := (0, some GoErr.hashNotInit)

/-- The process-wide mutable state of `types/hash.go`: the `sync.Once` flag
and the installed `hashScheme` hook, made explicit. -/
structure HashSchemeState where
  onceDone : Bool
  hashScheme : List Int → Int × Option GoErr

/-- The state at package initialization: the once-flag unset, the hook `dummyHash`. -/
def initialHashState : HashSchemeState := ⟨false, dummyHash⟩

/-- `InitHashScheme(f)`: `setHashScheme.Do(func() { hashScheme = f })` — the
body runs only if the once-flag is unset, and sets it. -/
def InitHashScheme (f : List Int → Int × Option GoErr) (s : HashSchemeState) : HashSchemeState :=
  if s.onceDone then s else { onceDone := true, hashScheme := f }

/-- `numCharPrint` from `types/hash.go`. -/
def numCharPrint : Nat := 8

/-- The ASCII character of a decimal digit. -/
def digitChar (d : Nat) : Char := Char.ofNat (48 + d)

/-- `big.Int.String` for a non-negative value: minimal decimal digits, no sign. -/
def bigIntString (n : Nat) : List Char :=
  if n = 0 then ['0'] else ((Nat.digits 10 n).reverse).map digitChar

/-- `Hash.String`: the decimal form of `BigInt`, truncated to the first
`numCharPrint` characters plus an ellipsis when long. -/
def Hash.String (h : Hash) : List Char :=
  let s := bigIntString h.BigInt
  if s.length < numCharPrint then s else s.take numCharPrint ++ ['.', '.', '.']

/-- The numeric value of an ASCII decimal digit, if it is one. -/
def digitVal (c : Char) : Option Nat :=
  if 48 ≤ c.toNat ∧ c.toNat ≤ 57 then some (c.toNat - 48) else none

/-- Accumulating decimal scan; fails at the first non-digit. -/
def parseDigitsAux : Nat → List Char → Option Nat
  | acc, [] => some acc
  | acc, c :: cs =>
    match digitVal c with
    | some d => parseDigitsAux (acc * 10 + d) cs
    | none => none

/-- A non-empty run of decimal digits. -/
def parseDecNat (s : List Char) : Option Nat :=
  match s with
  | [] => none
  | _ :: _ => parseDigitsAux 0 s

/-- `big.Int.SetString(s, 10)` on ASCII input: an optional sign followed by a
non-empty digit run; anything else fails. -/
def goSetString10 (s : List Char) : Option Int :=
  match s with
  | [] => none
  | c :: rest =>
    if c = '-' then (parseDecNat rest).map (fun n => -(n : Int))
    else if c = '+' then (parseDecNat rest).map (fun n => (n : Int))
    else (parseDecNat s).map (fun n => (n : Int))

/-- `NewHashFromString`: parse a decimal string; on failure return the nil
pointer (`none`) together with the error. -/
def NewHashFromString (s : List Char) : Option Hash × Option GoErr :=
  match goSetString10 s with
  | none => (none, some GoErr.cannotParse)
  | some bi => (some (NewHashFromBigInt bi), none)

/-- `Hash.MarshalText`: the decimal string of `BigInt`, never an error. -/
def Hash.MarshalText (h : Hash) : List Char × Option GoErr := (bigIntString h.BigInt, none)

/-- `Hash.UnmarshalText`: `ha, err := NewHashFromString(string(b));
copy(h[:], ha[:]); return err`. When `NewHashFromString` fails, `ha` is a nil
pointer and the slice operation `ha[:]` dereferences it — a run-time panic,
modelled as `none`. -/
def Hash.UnmarshalText (h : Hash) (b : List Char) : Option (Hash × Option GoErr) :=
  match NewHashFromString b with
  | (some ha, err) =>
    some (⟨goCopy h.val ha.val,
      by rw [goCopy_length]; exact h.property.1,
      fun x hx => (goCopy_mem hx).elim (fun hs => ha.property.2 x hs)
        (fun hd => h.property.2 x hd)⟩, err)
  | (none, _) => none

/-- Errors of the trie state machine (spec §7). -/
inductive TrieErr where
  | keyNotFound
  | reachedMaxLevel
  | entryIndexAlreadyExists
  | nodeNotFound
deriving DecidableEq

/-- Modelled from the spec: the node taxonomy of the trie state machine
(`ZkTrieImpl` and its `Node` type are not among the provided sources; only
their tests are). A node is `Empty`, a `Leaf` holding the nodeKey (a field
element, whose little-endian bits determine the path) and the stored value
data, or a `Parent` with two children. The storage layer is content-addressed
and immutable, so a subtree is represented directly by its node tree; the
value payload (`compressedFlags` plus the `valuePreimage` words) is
abstracted as a type parameter `V`. -/
inductive TNode (V : Type) where
  | empty : TNode V
  | leaf (k : Nat) (v : V) : TNode V
  | parent (l r : TNode V) : TNode V
deriving DecidableEq

instance {e a : Type} [DecidableEq e] [DecidableEq a] : DecidableEq (Except e a)
  | .ok x, .ok y =>
    if h : x = y then isTrue (by rw [h]) else isFalse (fun hc => h (Except.ok.inj hc))
  | .error x, .error y =>
    if h : x = y then isTrue (by rw [h]) else isFalse (fun hc => h (Except.error.inj hc))
  | .ok _, .error _ => isFalse (fun hc => Except.noConfusion hc)
  | .error _, .ok _ => isFalse (fun hc => Except.noConfusion hc)

/-- Bit `i` of a key's little-endian bit expansion (spec: bit 0 = LSB,
`0 → left`, `1 → right`). -/
def keyBit (k i : Nat) : Bool := Nat.testBit k i

/-- Modelled from the spec (§4.4.1, §4.4.5): `tryGet` descends by key bits,
failing with `reachedMaxLevel` when descending below the level budget, and
returns the leaf value only when the terminal leaf stores the queried key. -/
def tryGet {V : Type} : TNode V → Nat → Nat → Nat → Except TrieErr V
  | .empty, _, _, _ => .error .keyNotFound
  | .leaf k2 v, _, _, k => if k2 = k then .ok v else .error .keyNotFound
  | .parent l r, lvl, fuel, k =>
    match fuel with
    | 0 => .error .reachedMaxLevel
    | fuel + 1 => if keyBit k lvl then tryGet r (lvl + 1) fuel k else tryGet l (lvl + 1) fuel k

/-- Modelled from the spec (§4.4.2): when an insert lands on a leaf with a
different key, `Parent` nodes are created downward until the first depth at
which the two keys' bits differ, each leaf placed on its own side; the level
budget `fuel` runs out with `reachedMaxLevel`. -/
def pushLeaf {V : Type} (k1 : Nat) (v1 : V) (k2 : Nat) (v2 : V) :
    Nat → Nat → Except TrieErr (TNode V)
  | _, 0 => .error .reachedMaxLevel
  | lvl, fuel + 1 =>
    if keyBit k1 lvl = keyBit k2 lvl then
      (pushLeaf k1 v1 k2 v2 (lvl + 1) fuel).map
        (fun sub => if keyBit k1 lvl then .parent .empty sub else .parent sub .empty)
    else
      if keyBit k1 lvl then .ok (.parent (.leaf k2 v2) (.leaf k1 v1))
      else .ok (.parent (.leaf k1 v1) (.leaf k2 v2))

/-- Modelled from the spec (§4.4.2): `tryUpdate` — write a fresh leaf into an
empty slot, replace the value of a leaf with the same key, extend the branch
via `pushLeaf` on a key mismatch, and otherwise descend by the key bit,
rebuilding the path bottom-up. -/
def tryUpdate {V : Type} : TNode V → Nat → Nat → Nat → V → Except TrieErr (TNode V)
  | .empty, _, _, k, v => .ok (.leaf k v)
  | .leaf k2 v2, lvl, fuel, k, v =>
    if k2 = k then .ok (.leaf k v) else pushLeaf k v k2 v2 lvl fuel
  | .parent l r, lvl, fuel, k, v =>
    match fuel with
    | 0 => .error .reachedMaxLevel
    | fuel + 1 =>
      if keyBit k lvl then (tryUpdate r (lvl + 1) fuel k v).map (fun r2 => .parent l r2)
      else (tryUpdate l (lvl + 1) fuel k v).map (fun l2 => .parent l2 r)

/-- Modelled from the spec (§4.4.3): the collapse rule applied when rebuilding
a parent after a delete — a parent whose one side is empty and whose other
side is a (recursively already collapsed) single leaf is replaced by that
leaf promoted to the parent's depth. -/
def collapseNode {V : Type} : TNode V → TNode V → TNode V
  | .empty, .leaf k v => .leaf k v
  | .leaf k v, .empty => .leaf k v
  | l, r => .parent l r

/-- Modelled from the spec (§4.4.3): `tryDelete` descends to the matching
leaf (else `keyNotFound`), replaces it by `Empty`, and applies the collapse
rule upward along the recorded path. -/
def tryDelete {V : Type} : TNode V → Nat → Nat → Nat → Except TrieErr (TNode V)
  | .empty, _, _, _ => .error .keyNotFound
  | .leaf k2 _, _, _, k => if k2 = k then .ok .empty else .error .keyNotFound
  | .parent l r, lvl, fuel, k =>
    match fuel with
    | 0 => .error .reachedMaxLevel
    | fuel + 1 =>
      if keyBit k lvl then (tryDelete r (lvl + 1) fuel k).map (fun r2 => collapseNode l r2)
      else (tryDelete l (lvl + 1) fuel k).map (fun l2 => collapseNode l2 r)

/-- The pure observation function of a trie: the value stored for a key,
descending by key bits. The live (nodeKey, value) set of a trie is exactly
the graph of `fun k => lookupKey t 0 k`. -/
def lookupKey {V : Type} : TNode V → Nat → Nat → Option V
  | .empty, _, _ => none
  | .leaf k2 v, _, k => if k2 = k then some v else none
  | .parent l r, lvl, k =>
    if keyBit k lvl then lookupKey r (lvl + 1) k else lookupKey l (lvl + 1) k

/-- All leaf keys in the subtree have bit `i` equal to `b`. -/
def allKeysBit {V : Type} : TNode V → Nat → Bool → Bool
  | .empty, _, _ => true
  | .leaf k _, i, b => keyBit k i == b
  | .parent l r, i, b => allKeysBit l i b && allKeysBit r i b

/-- Spec invariant 3 at a single parent: no parent with two empty children,
and no parent whose one side is empty while the other is a bare leaf. -/
def canonPair {V : Type} : TNode V → TNode V → Bool
  | .empty, .empty => false
  | .empty, .leaf _ _ => false
  | .leaf _ _, .empty => false
  | _, _ => true

/-- Canonical well-formedness of a subtree rooted at depth `lvl` (spec
invariants 2 and 3): keys sit on the side selected by their bit at each
depth, and no redundant single-leaf parent chains exist. -/
def canon {V : Type} : TNode V → Nat → Bool
  | .empty, _ => true
  | .leaf _ _, _ => true
  | .parent l r, lvl =>
    canonPair l r && allKeysBit l lvl false && allKeysBit r lvl true &&
      canon l (lvl + 1) && canon r (lvl + 1)

/-- Some leaf in the subtree stores key `k`. -/
def containsKey {V : Type} : TNode V → Nat → Bool
  | .empty, _ => false
  | .leaf k2 _, k => k2 == k
  | .parent l r, k => containsKey l k || containsKey r k

/-- Modelled from the spec: canonical node hashing, parametrized by the
installed hash hook `hf` and the value-hash helper `vh` (§4.1): the empty
node hashes to `HashZero` (0), a leaf to
`hashElems(leafDomainTag, nodeKey, valueHash)` and a parent to
`hashElems(left, right)` under the parent-domain tag. -/
def rootHash {V : Type} (hf : List Nat → Nat) (vh : V → Nat) : TNode V → Nat
  | .empty => 0
  | .leaf k v => hf [1, k, vh v]
  | .parent l r => hf [2, rootHash hf vh l, rootHash hf vh r]

/-- `zkTrieImplTestWrapper.AddWord` from the test layer (the wrapper source is
provided): fail with `ErrEntryIndexAlreadyExists` when `TryGet` yields a
value — leaving the trie unchanged, since no state is produced — and
otherwise defer to `TryUpdate`. -/
def addWord {V : Type} (maxLvl : Nat) (t : TNode V) (k : Nat) (v : V) :
    Except TrieErr (TNode V) :=
  match tryGet t 0 maxLvl k with
  | .ok _ => .error .entryIndexAlreadyExists
  | .error _ => tryUpdate t 0 maxLvl k v

/-- Fold a list of `(key, value)` updates over a trie. -/
def applyUpdates {V : Type} (maxLvl : Nat) (t : TNode V) (ps : List (Nat × V)) :
    Except TrieErr (TNode V) :=
  ps.foldlM (fun t p => tryUpdate t 0 maxLvl p.1 p.2) t

/-- Build a trie from the empty root by inserting the given pairs in order. -/
def buildTrie {V : Type} (maxLvl : Nat) (ps : List (Nat × V)) : Except TrieErr (TNode V) :=
  applyUpdates maxLvl .empty ps

/-- Fold a list of deletions over a trie. -/
def applyDeletes {V : Type} (maxLvl : Nat) (t : TNode V) (ks : List Nat) :
    Except TrieErr (TNode V) :=
  ks.foldlM (fun t k => tryDelete t 0 maxLvl k) t

/-- A mutating trie operation: an insert/update or a delete. -/
inductive TrieOp (V : Type) where
  | ins (k : Nat) (v : V)
  | del (k : Nat)

/-- Run one operation. -/
def applyOp {V : Type} (maxLvl : Nat) (t : TNode V) : TrieOp V → Except TrieErr (TNode V)
  | .ins k v => tryUpdate t 0 maxLvl k v
  | .del k => tryDelete t 0 maxLvl k

/-- Run an operation trace from the empty trie. -/
def applyOps {V : Type} (maxLvl : Nat) (ops : List (TrieOp V)) : Except TrieErr (TNode V) :=
  ops.foldlM (applyOp maxLvl) .empty

/-- The effect of a list of store-style updates on a partial map. -/
def updAssoc {V : Type} (f : Nat → Option V) : List (Nat × V) → Nat → Option V
  | [], q => f q
  | p :: ps, q => updAssoc (fun x => if x = p.1 then some p.2 else f x) ps q

/-! ### Arithmetic facts about the byte codecs -/

theorem foldl_mul_add (b : Nat) :
    ∀ (l : List Nat) (a : Nat),
      l.foldl (fun x d => x * b + d) a = a * b ^ l.length + Nat.ofDigits b l.reverse := by
  intro l
  induction l with
  | nil => intro a; simp
  | cons d l ih =>
    intro a
    simp only [List.foldl_cons, List.reverse_cons, List.length_cons]
    rw [ih, Nat.ofDigits_append]
    simp only [List.length_reverse, Nat.ofDigits_cons, Nat.ofDigits_nil]
    ring

theorem setBytesBE_eq (l : List Nat) : setBytesBE l = Nat.ofDigits 256 l.reverse := by
  have h := foldl_mul_add 256 l 0
  simpa [setBytesBE] using h

theorem Hash.bigInt_eq (h : Hash) : h.BigInt = Nat.ofDigits 256 h.val := by
  simp [Hash.BigInt, ReverseByteOrder, setBytesBE_eq]

theorem ofDigits_replicate_zero (b m : Nat) : Nat.ofDigits b (List.replicate m 0) = 0 := by
  induction m with
  | zero => simp
  | succ m ih => simp [List.replicate_succ, Nat.ofDigits_cons, ih]

theorem ofDigits_digits_take (k : Nat) :
    ∀ n : Nat, Nat.ofDigits 256 ((Nat.digits 256 n).take k) = n % 256 ^ k := by
  induction k with
  | zero => intro n; simp [Nat.mod_one]
  | succ k ih =>
    intro n
    rcases Nat.eq_zero_or_pos n with rfl | hn
    · simp
    · rw [Nat.digits_def' (by norm_num : (1 : ℕ) < 256) hn, List.take_succ_cons,
        Nat.ofDigits_cons, ih (n / 256), pow_succ']
      rw [Nat.mod_mul]

theorem ofDigits256_eq_zero {l : List Nat} (h : Nat.ofDigits 256 l = 0) :
    l = List.replicate l.length 0 := by
  induction l with
  | nil => rfl
  | cons d l ih =>
    rw [Nat.ofDigits_cons] at h
    have hd : d = 0 := by omega
    have hl : Nat.ofDigits 256 l = 0 := by omega
    subst hd
    rw [List.length_cons, List.replicate_succ, ← ih hl]

theorem drop_replicate (x : Nat) : ∀ m k : Nat,
    (List.replicate m x).drop k = List.replicate (m - k) x := by
  intro m
  induction m with
  | zero => intro k; simp
  | succ m ih =>
    intro k
    cases k with
    | zero => simp
    | succ k =>
      rw [List.replicate_succ, List.drop_succ_cons, ih k, Nat.succ_sub_succ]

theorem goCopy_cons_replicate (n x s : Nat) (ss : List Nat) :
    goCopy (List.replicate (n + 1) x) (s :: ss) = s :: goCopy (List.replicate n x) ss := by
  simp [goCopy, List.replicate_succ, List.take_succ_cons]

theorem digits_reconstruct :
    ∀ l : List Nat, (∀ x ∈ l, x < 256) →
      goCopy (List.replicate l.length 0) (Nat.digits 256 (Nat.ofDigits 256 l)) = l := by
  intro l
  induction l with
  | nil => intro _; simp [goCopy]
  | cons d l ih =>
    intro hb
    rw [Nat.ofDigits_cons]
    by_cases h0 : d + 256 * Nat.ofDigits 256 l = 0
    · have hd : d = 0 := by omega
      have hl0 : Nat.ofDigits 256 l = 0 := by omega
      subst hd
      rw [h0, Nat.digits_zero]
      show goCopy (List.replicate (l.length + 1) 0) [] = 0 :: l
      simp only [goCopy, List.take_nil, List.length_nil, List.drop_zero, List.nil_append]
      rw [List.replicate_succ]
      exact congrArg (0 :: ·) (ofDigits256_eq_zero hl0).symm
    · have hpos : 0 < d + 256 * Nat.ofDigits 256 l := Nat.pos_of_ne_zero h0
      have hd256 : d < 256 := hb d (List.mem_cons_self _ _)
      rw [Nat.digits_def' (by norm_num : (1 : ℕ) < 256) hpos]
      have hmod : (d + 256 * Nat.ofDigits 256 l) % 256 = d := by
        rw [Nat.add_mul_mod_self_left, Nat.mod_eq_of_lt hd256]
      have hdiv : (d + 256 * Nat.ofDigits 256 l) / 256 = Nat.ofDigits 256 l := by
        rw [Nat.add_mul_div_left _ _ (by norm_num : 0 < 256), Nat.div_eq_of_lt hd256,
          Nat.zero_add]
      rw [hmod, hdiv, List.length_cons, goCopy_cons_replicate,
        ih (fun x hx => hb x (List.mem_cons_of_mem _ hx))]

/-! ### C9: NewHashFromBigInt truncates modulo 2^256 -/

/-- C9: for every non-negative integer `b`, `NewHashFromBigInt(b).BigInt()`
equals `b mod 2^256`: inputs of 256 bits or more are silently truncated to
their low 32 bytes, and no field-range check against `Q` is performed
(`NewHashFromBigInt` is total and never consults `Q`). -/
theorem newHashFromBigInt_truncates (n : Nat) :
    (NewHashFromBigInt (n : Int)).BigInt = n % 2 ^ 256 := by
  have h2 : (2 : ℕ) ^ 256 = 256 ^ 32 := by norm_num
  rw [Hash.bigInt_eq, h2]
  show Nat.ofDigits 256
      (goCopy (List.replicate 32 0)
        (ReverseByteOrder (bigIntBytes (Int.natAbs (n : Int))))) = n % 256 ^ 32
  rw [Int.natAbs_ofNat]
  unfold bigIntBytes ReverseByteOrder
  rw [List.reverse_reverse]
  unfold goCopy
  rw [Nat.ofDigits_append, List.length_replicate]
  rw [drop_replicate, ofDigits_replicate_zero, Nat.mul_zero, Nat.add_zero,
    ofDigits_digits_take]

/-! ### C4: Hash/byte-string conversion round trip -/

theorem Hash.bytes_lt (h : Hash) : ∀ x ∈ h.Bytes, x < 256 := by
  intro x hx
  rcases goCopy_mem (List.mem_reverse.1 hx) with hm | hm
  · exact h.property.2 x hm
  · rcases List.eq_of_mem_replicate hm with rfl; decide

theorem hash_goCopy_val (h : Hash) : goCopy (List.replicate 32 0) h.val = h.val :=
  goCopy_full (by rw [h.property.1]; rfl)

theorem Hash.bytes_eq (h : Hash) : h.Bytes = h.val.reverse := by
  unfold Hash.Bytes ReverseByteOrder
  rw [hash_goCopy_val]

/-- C4: for every `Hash` `h`, `h.Bytes()` has length 32 and is the byte
reversal of `h`'s little-endian array, and `NewHashFromCheckedBytes(h.Bytes())`
succeeds returning `h` itself; for every 32-byte input `b`,
`NewHashFromBytes(b).Bytes()` equals `b`. -/
theorem hash_bytes_roundtrip :
    (∀ h : Hash, (Hash.Bytes h).length = 32 ∧ Hash.Bytes h = h.val.reverse ∧
        NewHashFromCheckedBytes (Hash.Bytes h) (Hash.bytes_lt h) = .ok h) ∧
      ∀ (b : List Nat) (hb : ∀ x ∈ b, x < 256), b.length = 32 →
        (NewHashFromBytes b hb).Bytes = b := by
  constructor
  · intro h
    have hlen : (Hash.Bytes h).length = 32 := by
      rw [Hash.bytes_eq, List.length_reverse, h.property.1]; rfl
    refine ⟨hlen, Hash.bytes_eq h, ?_⟩
    unfold NewHashFromCheckedBytes
    rw [if_pos (by rw [hlen]; rfl)]
    congr 1
    apply Subtype.ext
    show goCopy (List.replicate 32 0) (ReverseByteOrder (Hash.Bytes h)) = h.val
    rw [Hash.bytes_eq]
    unfold ReverseByteOrder
    rw [List.reverse_reverse, hash_goCopy_val]
  · intro b hb hlen
    unfold NewHashFromBytes
    rw [Hash.bytes_eq]
    show (goCopy (List.replicate 32 0) (ReverseByteOrder b)).reverse = b
    unfold ReverseByteOrder
    rw [goCopy_full (by rw [List.length_reverse, hlen]; rfl), List.reverse_reverse]

/-- Witness for C4 at a concrete 32-byte input. -/
theorem hash_bytes_roundtrip_witness :
    (NewHashFromBytes (List.replicate 32 7)
        (fun x hx => by rcases List.eq_of_mem_replicate hx with rfl; decide)).Bytes
      = List.replicate 32 7 :=
  hash_bytes_roundtrip.2 (List.replicate 32 7) _ rfl

/-! ### C5: CheckBigIntInField versus the field range -/

/-- C5 counterexample: the claim "CheckBigIntInField(a) = true iff
0 ≤ a < Q for every big integer a" fails at `a = -1`: the code only compares
`a.Cmp(Q) == -1`, so the negative input passes the check. -/
theorem checkBigIntInField_neg_counterexample :
    CheckBigIntInField (-1) = true ∧ ¬ (0 ≤ (-1 : Int) ∧ (-1 : Int) < Q) := by
  constructor
  · norm_num [CheckBigIntInField, Q]
  · intro hc
    omega

/-- C5 (amended): `CheckBigIntInField a` is true iff `a < Q`; on non-negative
inputs this coincides with membership in the field range `[0, Q)`. -/
theorem checkBigIntInField_iff (a : Int) :
    (CheckBigIntInField a = true ↔ a < Q) ∧
      (0 ≤ a → (CheckBigIntInField a = true ↔ (0 ≤ a ∧ a < Q))) := by
  constructor
  · simp [CheckBigIntInField]
  · intro h
    simp [CheckBigIntInField, h]

/-- Witness for the amended C5 at `a = 5`. -/
theorem checkBigIntInField_iff_witness :
    CheckBigIntInField 5 = true ↔ (0 ≤ (5 : Int) ∧ (5 : Int) < Q) :=
  (checkBigIntInField_iff 5).2 (by norm_num)

/-! ### C3: the hash hook is installed at most once -/

/-- C3: before any `InitHashScheme` call every hashing attempt returns the
hash-scheme-not-initialized error; the first `InitHashScheme f` installs `f`;
any later `InitHashScheme g` leaves the installed state unchanged. -/
theorem initHashScheme_once (f g : List Int → Int × Option GoErr)
    (s : HashSchemeState) (xs : List Int) :
    initialHashState.hashScheme xs = (0, some GoErr.hashNotInit) ∧
      (InitHashScheme f initialHashState).hashScheme = f ∧
      InitHashScheme g (InitHashScheme f s) = InitHashScheme f s := by
  refine ⟨rfl, rfl, ?_⟩
  by_cases h : s.onceDone
  · simp [InitHashScheme, h]
  · simp [InitHashScheme, h]

/-! ### C7: Hash.String truncation -/

theorem bigIntString_length (n : Nat) : (bigIntString n).length < 8 ↔ n < 10 ^ 7 := by
  by_cases h0 : n = 0
  · subst h0; simp [bigIntString]
  · unfold bigIntString
    rw [if_neg h0, List.length_map, List.length_reverse,
      Nat.digits_len 10 n (by norm_num) h0]
    have hlog := Nat.lt_pow_iff_log_lt (b := 10) (x := 7) (y := n) (by norm_num) h0
    omega

/-- C7: `h.String()` is the full decimal representation of `h.BigInt()` when
that representation is shorter than 8 characters (equivalently, when the
value is below `10^7`), and otherwise its first 8 decimal characters followed
by an ellipsis; `HashZero` renders as `"0"`. -/
theorem hash_string_truncation (h : Hash) :
    (h.BigInt < 10 ^ 7 → Hash.String h = bigIntString h.BigInt) ∧
      (10 ^ 7 ≤ h.BigInt → Hash.String h =
        (bigIntString h.BigInt).take numCharPrint ++ ['.', '.', '.']) ∧
      Hash.String HashZero = ['0'] := by
  refine ⟨?_, ?_, by decide⟩
  · intro hlt
    show (if (bigIntString h.BigInt).length < numCharPrint then bigIntString h.BigInt
      else (bigIntString h.BigInt).take numCharPrint ++ ['.', '.', '.']) = _
    simp only [numCharPrint]
    rw [if_pos ((bigIntString_length _).2 hlt)]
  · intro hge
    show (if (bigIntString h.BigInt).length < numCharPrint then bigIntString h.BigInt
      else (bigIntString h.BigInt).take numCharPrint ++ ['.', '.', '.']) = _
    simp only [numCharPrint]
    rw [if_neg (by rw [bigIntString_length]; omega)]

/-- Witness for C7 at `HashZero`. -/
theorem hash_string_truncation_witness :
    HashZero.BigInt < 10 ^ 7 ∧ Hash.String HashZero = bigIntString HashZero.BigInt :=
  ⟨by decide, (hash_string_truncation HashZero).1 (by decide)⟩

/-! ### Decimal parse/print round trip -/

theorem digitVal_digitChar {d : Nat} (hd : d < 10) : digitVal (digitChar d) = some d := by
  interval_cases d <;> decide

theorem digitChar_ne_sign {d : Nat} (hd : d < 10) :
    digitChar d ≠ '-' ∧ digitChar d ≠ '+' := by
  interval_cases d <;> exact ⟨by decide, by decide⟩

theorem parseDigitsAux_map :
    ∀ (ds : List Nat) (acc : Nat), (∀ d ∈ ds, d < 10) →
      parseDigitsAux acc (ds.map digitChar)
        = some (ds.foldl (fun a d => a * 10 + d) acc) := by
  intro ds
  induction ds with
  | nil => intro acc _; rfl
  | cons d ds ih =>
    intro acc hlt
    rw [List.map_cons]
    simp only [parseDigitsAux, digitVal_digitChar (hlt d (List.mem_cons_self _ _)),
      List.foldl_cons]
    exact ih (acc * 10 + d) (fun x hx => hlt x (List.mem_cons_of_mem _ hx))

theorem foldr_digits_eq_ofDigits (b : Nat) :
    ∀ l : List Nat, l.foldr (fun d a => a * b + d) 0 = Nat.ofDigits b l := by
  intro l
  induction l with
  | nil => simp
  | cons d l ih => rw [List.foldr_cons, ih, Nat.ofDigits_cons]; ring

theorem parse_bigIntString (n : Nat) : goSetString10 (bigIntString n) = some (n : Int) := by
  by_cases h0 : n = 0
  · subst h0; rfl
  · have hdig : ∀ d ∈ (Nat.digits 10 n).reverse, d < 10 := fun d hd =>
      Nat.digits_lt_base (by norm_num) (List.mem_reverse.1 hd)
    unfold bigIntString
    rw [if_neg h0]
    cases hrev : (Nat.digits 10 n).reverse with
    | nil =>
      exact absurd (List.reverse_eq_nil_iff.1 hrev)
        (Nat.digits_ne_nil_iff_ne_zero.mpr h0)
    | cons d0 rest =>
      have hd0 : d0 < 10 := by
        refine hdig d0 ?_
        rw [hrev]; exact List.mem_cons_self _ _
      rw [List.map_cons]
      simp only [goSetString10, if_neg (digitChar_ne_sign hd0).1,
        if_neg (digitChar_ne_sign hd0).2, parseDecNat]
      rw [← List.map_cons, ← hrev, parseDigitsAux_map _ 0 hdig]
      simp only [List.foldl_reverse, foldr_digits_eq_ofDigits, Nat.ofDigits_digits,
        Option.map_some']
      rfl

theorem newHashFromBigInt_bigInt (h : Hash) :
    NewHashFromBigInt ((h.BigInt : Nat) : Int) = h := by
  apply Subtype.ext
  show goCopy (List.replicate 32 0)
      (ReverseByteOrder (bigIntBytes (Int.natAbs ((h.BigInt : Nat) : Int)))) = h.val
  rw [Int.natAbs_ofNat]
  unfold bigIntBytes ReverseByteOrder
  rw [List.reverse_reverse, Hash.bigInt_eq]
  calc goCopy (List.replicate 32 0) (Nat.digits 256 (Nat.ofDigits 256 h.val))
      = goCopy (List.replicate h.val.length 0) (Nat.digits 256 (Nat.ofDigits 256 h.val)) := by
        rw [h.property.1]; rfl
    _ = h.val := digits_reconstruct h.val h.property.2

/-! ### C8: UnmarshalText on unparseable input -/

/-- C8 (code-bug evidence): on the input `"x"`, which does not parse as a
decimal integer, `NewHashFromString` returns the nil pointer together with
the parse error, and `UnmarshalText` — which slices that nil pointer via
`ha[:]` before returning the error — hits a nil-pointer dereference
(a run-time panic, `none` in this model) instead of returning the error. -/
theorem unmarshalText_nil_deref :
    NewHashFromString ['x'] = (none, some GoErr.cannotParse) ∧
      Hash.UnmarshalText HashZero ['x'] = none :=
  ⟨rfl, rfl⟩

/-! ### C10: MarshalText/UnmarshalText round trip -/

/-- C10: for every `Hash` `h` (including values `≥ Q`), `MarshalText` returns
no error and feeding its output to `UnmarshalText` succeeds — restoring a
hash equal to `h` into the receiver and returning a nil error. -/
theorem marshal_unmarshal_roundtrip (h recv : Hash) :
    (Hash.MarshalText h).2 = none ∧
      Hash.UnmarshalText recv (Hash.MarshalText h).1 = some (h, none) := by
  refine ⟨rfl, ?_⟩
  show Hash.UnmarshalText recv (bigIntString h.BigInt) = some (h, none)
  simp only [Hash.UnmarshalText, NewHashFromString, parse_bigIntString]
  refine congrArg some (Prod.ext ?_ rfl)
  apply Subtype.ext
  show goCopy recv.val (NewHashFromBigInt ((h.BigInt : Nat) : Int)).val = h.val
  rw [newHashFromBigInt_bigInt h,
    goCopy_full (by rw [h.property.1, recv.property.1])]

/-! ### Trie lemmas: canonical trees are determined by their live set -/

theorem except_bind_ok {ε α β : Type} {x : Except ε α} {f : α → Except ε β} {b : β}
    (h : (x >>= f) = .ok b) : ∃ a, x = .ok a ∧ f a = .ok b := by
  cases x with
  | ok a => exact ⟨a, rfl, h⟩
  | error e => exact Except.noConfusion h

theorem except_map_ok {ε α β : Type} {x : Except ε α} {f : α → β} {b : β}
    (h : x.map f = .ok b) : ∃ a, x = .ok a ∧ f a = b := by
  cases x with
  | ok a => exact ⟨a, rfl, by injection h⟩
  | error e => exact Except.noConfusion h

theorem lookup_some_contains {V : Type} :
    ∀ (t : TNode V) (lvl k : Nat) (v : V),
      lookupKey t lvl k = some v → containsKey t k = true := by
  intro t
  induction t with
  | empty => intro lvl k v h; simp [lookupKey] at h
  | leaf k2 v2 =>
    intro lvl k v h
    by_cases hk : k2 = k
    · simp [containsKey, hk]
    · simp [lookupKey, hk] at h
  | parent l r ihl ihr =>
    intro lvl k v h
    by_cases hb : keyBit k lvl
    · simp only [lookupKey, hb, if_true] at h
      simp only [containsKey, Bool.or_eq_true]
      exact Or.inr (ihr _ _ _ h)
    · simp only [lookupKey, hb, if_false] at h
      simp only [containsKey, Bool.or_eq_true]
      exact Or.inl (ihl _ _ _ h)

theorem allKeysBit_contains {V : Type} :
    ∀ (t : TNode V) (i : Nat) (b : Bool) (k : Nat),
      allKeysBit t i b = true → containsKey t k = true → keyBit k i = b := by
  intro t
  induction t with
  | empty => intro i b k _ hc; simp [containsKey] at hc
  | leaf k2 v2 =>
    intro i b k hall hc
    simp only [containsKey, beq_iff_eq] at hc
    simp only [allKeysBit, beq_iff_eq] at hall
    rw [← hc]; exact hall
  | parent l r ihl ihr =>
    intro i b k hall hc
    simp only [allKeysBit, Bool.and_eq_true] at hall
    simp only [containsKey, Bool.or_eq_true] at hc
    rcases hc with hc | hc
    · exact ihl i b k hall.1 hc
    · exact ihr i b k hall.2 hc

theorem lookup_bit_ne {V : Type} {t : TNode V} {i lvl k : Nat} {b : Bool}
    (hall : allKeysBit t i b = true) (hbit : ¬ keyBit k i = b) :
    lookupKey t lvl k = none := by
  cases hl : lookupKey t lvl k with
  | none => rfl
  | some v =>
    exact absurd (allKeysBit_contains t i b k hall (lookup_some_contains t lvl k v hl)) hbit

theorem canon_parent_parts {V : Type} {l r : TNode V} {lvl : Nat}
    (h : canon (.parent l r) lvl = true) :
    canonPair l r = true ∧ allKeysBit l lvl false = true ∧ allKeysBit r lvl true = true ∧
      canon l (lvl + 1) = true ∧ canon r (lvl + 1) = true := by
  simp only [canon, Bool.and_eq_true] at h
  tauto

theorem canon_nonempty_lookup {V : Type} :
    ∀ (t : TNode V) (lvl : Nat), canon t lvl = true → t ≠ .empty →
      ∃ k v, lookupKey t lvl k = some v := by
  intro t
  induction t with
  | empty => intro lvl _ hne; exact absurd rfl hne
  | leaf k2 v2 => intro lvl _ _; exact ⟨k2, v2, by simp [lookupKey]⟩
  | parent l r ihl ihr =>
    intro lvl hc _
    obtain ⟨hcp, hfl, hfr, hcl, hcr⟩ := canon_parent_parts hc
    by_cases hle : l = TNode.empty
    · subst hle
      have hrne : r ≠ TNode.empty := by
        intro hre; subst hre; simp [canonPair] at hcp
      obtain ⟨k, v, hk⟩ := ihr (lvl + 1) hcr hrne
      have hbit : keyBit k lvl = true :=
        allKeysBit_contains _ _ _ _ hfr (lookup_some_contains _ _ _ _ hk)
      exact ⟨k, v, by simp [lookupKey, hbit, hk]⟩
    · obtain ⟨k, v, hk⟩ := ihl (lvl + 1) hcl hle
      have hbit : keyBit k lvl = false :=
        allKeysBit_contains _ _ _ _ hfl (lookup_some_contains _ _ _ _ hk)
      exact ⟨k, v, by simp [lookupKey, hbit, hk]⟩

/-- A node is a `Parent`. -/
def isParentNode {V : Type} : TNode V → Bool
  | .parent _ _ => true
  | _ => false

theorem canon_parent_two_keys {V : Type} :
    ∀ (t : TNode V) (lvl : Nat), canon t lvl = true → isParentNode t = true →
      ∃ k1 v1 k2 v2, k1 ≠ k2 ∧
        lookupKey t lvl k1 = some v1 ∧ lookupKey t lvl k2 = some v2 := by
  intro t
  induction t with
  | empty => intro lvl _ h; exact Bool.noConfusion h
  | leaf k2 v2 => intro lvl _ h; exact Bool.noConfusion h
  | parent l r ihl ihr =>
    intro lvl hc _
    obtain ⟨hcp, hfl, hfr, hcl, hcr⟩ := canon_parent_parts hc
    by_cases hle : l = TNode.empty
    · subst hle
      have hrp : isParentNode r = true := by
        cases r with
        | empty => simp [canonPair] at hcp
        | leaf _ _ => simp [canonPair] at hcp
        | parent _ _ => rfl
      obtain ⟨k1, v1, k2, v2, hne, h1, h2⟩ := ihr (lvl + 1) hcr hrp
      have hb1 : keyBit k1 lvl = true :=
        allKeysBit_contains _ _ _ _ hfr (lookup_some_contains _ _ _ _ h1)
      have hb2 : keyBit k2 lvl = true :=
        allKeysBit_contains _ _ _ _ hfr (lookup_some_contains _ _ _ _ h2)
      exact ⟨k1, v1, k2, v2, hne, by simp [lookupKey, hb1, h1],
        by simp [lookupKey, hb2, h2]⟩
    · by_cases hre : r = TNode.empty
      · subst hre
        have hlp : isParentNode l = true := by
          cases l with
          | empty => exact absurd rfl hle
          | leaf _ _ => simp [canonPair] at hcp
          | parent _ _ => rfl
        obtain ⟨k1, v1, k2, v2, hne, h1, h2⟩ := ihl (lvl + 1) hcl hlp
        have hb1 : keyBit k1 lvl = false :=
          allKeysBit_contains _ _ _ _ hfl (lookup_some_contains _ _ _ _ h1)
        have hb2 : keyBit k2 lvl = false :=
          allKeysBit_contains _ _ _ _ hfl (lookup_some_contains _ _ _ _ h2)
        exact ⟨k1, v1, k2, v2, hne, by simp [lookupKey, hb1, h1],
          by simp [lookupKey, hb2, h2]⟩
      · obtain ⟨k1, v1, hk1⟩ := canon_nonempty_lookup l (lvl + 1) hcl hle
        obtain ⟨k2, v2, hk2⟩ := canon_nonempty_lookup r (lvl + 1) hcr hre
        have hb1 : keyBit k1 lvl = false :=
          allKeysBit_contains _ _ _ _ hfl (lookup_some_contains _ _ _ _ hk1)
        have hb2 : keyBit k2 lvl = true :=
          allKeysBit_contains _ _ _ _ hfr (lookup_some_contains _ _ _ _ hk2)
        have hne : k1 ≠ k2 := by
          intro he; rw [← he] at hb2; rw [hb1] at hb2; exact Bool.noConfusion hb2
        exact ⟨k1, v1, k2, v2, hne, by simp [lookupKey, hb1, hk1],
          by simp [lookupKey, hb2, hk2]⟩

/-- Canonical extensionality: two canonical subtrees with the same live
(key, value) set are identical. This is the heart of spec invariant 1. -/
theorem canon_ext {V : Type} :
    ∀ (t1 : TNode V) (lvl : Nat) (t2 : TNode V),
      canon t1 lvl = true → canon t2 lvl = true →
      (∀ k, lookupKey t1 lvl k = lookupKey t2 lvl k) → t1 = t2 := by
  intro t1
  induction t1 with
  | empty =>
    intro lvl t2 _ hc2 hlook
    cases t2 with
    | empty => rfl
    | leaf k v => have h := hlook k; simp [lookupKey] at h
    | parent l r =>
      obtain ⟨k1, v1, k2, v2, hne, h1, h2⟩ := canon_parent_two_keys _ lvl hc2 rfl
      have h := hlook k1
      rw [h1] at h
      simp [lookupKey] at h
  | leaf k1 v1 =>
    intro lvl t2 _ hc2 hlook
    cases t2 with
    | empty => have h := hlook k1; simp [lookupKey] at h
    | leaf k2 v2 =>
      have h := hlook k1
      by_cases hk : k2 = k1
      · subst hk
        simp only [lookupKey, if_pos rfl] at h
        injection h with h
        rw [h]
      · simp [lookupKey, hk] at h
    | parent l r =>
      obtain ⟨ka, va, kb, vb, hne, ha, hb⟩ := canon_parent_two_keys _ lvl hc2 rfl
      have h1 := hlook ka
      rw [ha] at h1
      have h2 := hlook kb
      rw [hb] at h2
      have e1 : k1 = ka := by
        by_cases h : k1 = ka
        · exact h
        · simp [lookupKey, h] at h1
      have e2 : k1 = kb := by
        by_cases h : k1 = kb
        · exact h
        · simp [lookupKey, h] at h2
      exact absurd (e1.symm.trans e2) hne
  | parent l1 r1 ihl ihr =>
    intro lvl t2 hc1 hc2 hlook
    cases t2 with
    | empty =>
      obtain ⟨k1, v1, k2, v2, hne, h1, h2⟩ := canon_parent_two_keys _ lvl hc1 rfl
      have h := hlook k1
      rw [h1] at h
      simp [lookupKey] at h
    | leaf k2 v2 =>
      obtain ⟨ka, va, kb, vb, hne, ha, hb⟩ := canon_parent_two_keys _ lvl hc1 rfl
      have h1 := hlook ka
      rw [ha] at h1
      have h2 := hlook kb
      rw [hb] at h2
      have e1 : k2 = ka := by
        by_cases h : k2 = ka
        · exact h
        · simp [lookupKey, h] at h1
      have e2 : k2 = kb := by
        by_cases h : k2 = kb
        · exact h
        · simp [lookupKey, h] at h2
      exact absurd (e1.symm.trans e2) hne
    | parent l2 r2 =>
      obtain ⟨hcp1, hfl1, hfr1, hcl1, hcr1⟩ := canon_parent_parts hc1
      obtain ⟨hcp2, hfl2, hfr2, hcl2, hcr2⟩ := canon_parent_parts hc2
      have hL : ∀ k, lookupKey l1 (lvl + 1) k = lookupKey l2 (lvl + 1) k := by
        intro k
        by_cases hb : keyBit k lvl
        · rw [lookup_bit_ne hfl1 (by simp [hb]), lookup_bit_ne hfl2 (by simp [hb])]
        · have h := hlook k
          rw [Bool.not_eq_true] at hb
          simpa [lookupKey, hb] using h
      have hR : ∀ k, lookupKey r1 (lvl + 1) k = lookupKey r2 (lvl + 1) k := by
        intro k
        by_cases hb : keyBit k lvl
        · have h := hlook k
          simpa [lookupKey, hb] using h
        · rw [Bool.not_eq_true] at hb
          rw [lookup_bit_ne hfr1 (by simp [hb]), lookup_bit_ne hfr2 (by simp [hb])]
      rw [ihl (lvl + 1) l2 hcl1 hcl2 hL, ihr (lvl + 1) r2 hcr1 hcr2 hR]

/-! ### Trie lemmas: insertion -/

theorem canonPair_of_ne_empty {V : Type} {l r : TNode V}
    (hl : l ≠ .empty) (hr : r ≠ .empty) : canonPair l r = true := by
  cases l <;> cases r <;> first | rfl | exact absurd rfl hl | exact absurd rfl hr

theorem canonPair_right_parent {V : Type} (l a b : TNode V) :
    canonPair l (.parent a b) = true := by
  cases l <;> rfl

theorem canonPair_left_parent {V : Type} (a b r : TNode V) :
    canonPair (.parent a b) r = true := by
  cases r <;> rfl

theorem canonPair_empty_right {V : Type} {l : TNode V} (h : canonPair l .empty = true) :
    ∃ a b, l = .parent a b := by
  cases l with
  | empty => exact Bool.noConfusion h
  | leaf _ _ => exact Bool.noConfusion h
  | parent a b => exact ⟨a, b, rfl⟩

theorem canonPair_empty_left {V : Type} {r : TNode V} (h : canonPair .empty r = true) :
    ∃ a b, r = .parent a b := by
  cases r with
  | empty => exact Bool.noConfusion h
  | leaf _ _ => exact Bool.noConfusion h
  | parent a b => exact ⟨a, b, rfl⟩

theorem canon_parent_build {V : Type} {l r : TNode V} {lvl : Nat}
    (hcp : canonPair l r = true) (hfl : allKeysBit l lvl false = true)
    (hfr : allKeysBit r lvl true = true) (hcl : canon l (lvl + 1) = true)
    (hcr : canon r (lvl + 1) = true) : canon (.parent l r) lvl = true := by
  simp only [canon, Bool.and_eq_true]
  exact ⟨⟨⟨⟨hcp, hfl⟩, hfr⟩, hcl⟩, hcr⟩

theorem lookup_two_leaves {V : Type} {a b q lvl : Nat} {va vb : V}
    (ha : keyBit a lvl = false) (hb : keyBit b lvl = true) :
    lookupKey (.parent (.leaf a va) (.leaf b vb)) lvl q =
      if q = a then some va else if q = b then some vb else none := by
  by_cases hqa : q = a
  · subst hqa; simp [lookupKey, ha]
  · by_cases hqb : q = b
    · subst hqb; simp [lookupKey, hb, hqa]
    · cases hq : keyBit q lvl <;> simp [lookupKey, hq, hqa, hqb, Ne.symm hqa, Ne.symm hqb]

theorem pushLeaf_shape {V : Type} (k1 k2 : Nat) (v1 v2 : V) :
    ∀ (fuel lvl : Nat) (t : TNode V), pushLeaf k1 v1 k2 v2 lvl fuel = .ok t →
      ∃ a b, t = .parent a b := by
  intro fuel
  induction fuel with
  | zero => intro lvl t h; exact Except.noConfusion h
  | succ fuel ih =>
    intro lvl t h
    simp only [pushLeaf] at h
    by_cases hb : keyBit k1 lvl = keyBit k2 lvl
    · rw [if_pos hb] at h
      obtain ⟨sub, _, hmap⟩ := except_map_ok h
      cases hb1 : keyBit k1 lvl <;> rw [hb1] at hmap <;> simp at hmap <;>
        exact ⟨_, _, hmap.symm⟩
    · rw [if_neg hb] at h
      cases hb1 : keyBit k1 lvl <;> rw [hb1] at h <;> simp at h <;> exact ⟨_, _, h.symm⟩

theorem pushLeaf_lookup {V : Type} (k1 k2 : Nat) (v1 v2 : V) :
    ∀ (fuel lvl : Nat) (t : TNode V), pushLeaf k1 v1 k2 v2 lvl fuel = .ok t →
      ∀ q, lookupKey t lvl q =
        if q = k1 then some v1 else if q = k2 then some v2 else none := by
  intro fuel
  induction fuel with
  | zero => intro lvl t h; exact Except.noConfusion h
  | succ fuel ih =>
    intro lvl t h q
    simp only [pushLeaf] at h
    by_cases hb : keyBit k1 lvl = keyBit k2 lvl
    · rw [if_pos hb] at h
      obtain ⟨sub, hsub, hmap⟩ := except_map_ok h
      have hq := ih (lvl + 1) sub hsub q
      by_cases hqb : keyBit q lvl = keyBit k1 lvl
      · cases hb1 : keyBit k1 lvl <;> rw [hb1] at hmap <;> simp at hmap <;> subst hmap <;>
          rw [hb1] at hqb
        · simp [lookupKey, hqb, hq]
        · simp [lookupKey, hqb, hq]
      · have hq1 : ¬ q = k1 := fun he => hqb (by rw [he])
        have hq2 : ¬ q = k2 := fun he => hqb (by rw [he, ← hb])
        cases hb1 : keyBit k1 lvl <;> rw [hb1] at hmap <;> simp at hmap <;> subst hmap <;>
          rw [hb1] at hqb
        · have hqt : keyBit q lvl = true := by
            cases hqv : keyBit q lvl
            · exact absurd hqv hqb
            · rfl
          simp [lookupKey, hqt, hq1, hq2]
        · have hqf : keyBit q lvl = false := by
            cases hqv : keyBit q lvl
            · rfl
            · exact absurd hqv hqb
          simp [lookupKey, hqf, hq1, hq2]
    · rw [if_neg hb] at h
      cases hb1 : keyBit k1 lvl <;> rw [hb1] at h <;> simp at h <;> subst h
      · have hb2 : keyBit k2 lvl = true := by
          cases hb2v : keyBit k2 lvl
          · exact absurd (hb1.trans hb2v.symm) hb
          · rfl
        rw [lookup_two_leaves hb1 hb2]
      · have hb2 : keyBit k2 lvl = false := by
          cases hb2v : keyBit k2 lvl
          · rfl
          · exact absurd (hb1.trans hb2v.symm) hb
        have hk12 : ¬ k1 = k2 := by
          intro he
          rw [he] at hb1
          rw [hb1] at hb2
          exact Bool.noConfusion hb2
        rw [lookup_two_leaves hb2 hb1]
        by_cases hq1 : q = k1
        · subst hq1
          simp [hk12]
        · by_cases hq2 : q = k2
          · subst hq2
            simp [hq1]
          · simp [hq1, hq2]

theorem pushLeaf_allKeysBit {V : Type} (k1 k2 : Nat) (v1 v2 : V) :
    ∀ (fuel lvl : Nat) (t : TNode V) (i : Nat) (b : Bool),
      pushLeaf k1 v1 k2 v2 lvl fuel = .ok t →
      keyBit k1 i = b → keyBit k2 i = b → allKeysBit t i b = true := by
  intro fuel
  induction fuel with
  | zero => intro lvl t i b h; exact Except.noConfusion h
  | succ fuel ih =>
    intro lvl t i b h h1 h2
    simp only [pushLeaf] at h
    by_cases hb : keyBit k1 lvl = keyBit k2 lvl
    · rw [if_pos hb] at h
      obtain ⟨sub, hsub, hmap⟩ := except_map_ok h
      have hs := ih (lvl + 1) sub i b hsub h1 h2
      cases hb1 : keyBit k1 lvl <;> rw [hb1] at hmap <;> simp at hmap <;> subst hmap <;>
        simp [allKeysBit, hs]
    · rw [if_neg hb] at h
      cases hb1 : keyBit k1 lvl <;> rw [hb1] at h <;> simp at h <;> subst h <;>
        simp [allKeysBit, h1, h2]

theorem pushLeaf_canon {V : Type} (k1 k2 : Nat) (v1 v2 : V) :
    ∀ (fuel lvl : Nat) (t : TNode V), pushLeaf k1 v1 k2 v2 lvl fuel = .ok t →
      canon t lvl = true := by
  intro fuel
  induction fuel with
  | zero => intro lvl t h; exact Except.noConfusion h
  | succ fuel ih =>
    intro lvl t h
    simp only [pushLeaf] at h
    by_cases hb : keyBit k1 lvl = keyBit k2 lvl
    · rw [if_pos hb] at h
      obtain ⟨sub, hsub, hmap⟩ := except_map_ok h
      have hcs := ih (lvl + 1) sub hsub
      obtain ⟨a, b2, hshape⟩ := pushLeaf_shape k1 k2 v1 v2 fuel (lvl + 1) sub hsub
      have hsub1 : allKeysBit sub lvl (keyBit k1 lvl) = true :=
        pushLeaf_allKeysBit k1 k2 v1 v2 fuel (lvl + 1) sub lvl _ hsub rfl hb.symm
      cases hb1 : keyBit k1 lvl <;> rw [hb1] at hmap <;> simp at hmap <;> subst hmap <;>
        rw [hb1] at hsub1
      · refine canon_parent_build ?_ hsub1 rfl hcs rfl
        rw [hshape]
        exact canonPair_left_parent a b2 _
      · refine canon_parent_build ?_ rfl hsub1 rfl hcs
        rw [hshape]
        exact canonPair_right_parent _ a b2
    · rw [if_neg hb] at h
      cases hb1 : keyBit k1 lvl <;> rw [hb1] at h <;> simp at h <;> subst h
      · have hb2 : keyBit k2 lvl = true := by
          cases hb2v : keyBit k2 lvl
          · exact absurd (hb1.trans hb2v.symm) hb
          · rfl
        simp [canon, canonPair, allKeysBit, hb1, hb2]
      · have hb2 : keyBit k2 lvl = false := by
          cases hb2v : keyBit k2 lvl
          · rfl
          · exact absurd (hb1.trans hb2v.symm) hb
        simp [canon, canonPair, allKeysBit, hb1, hb2]

theorem tryUpdate_lookup {V : Type} :
    ∀ (t : TNode V) (lvl fuel k : Nat) (v : V) (t2 : TNode V),
      tryUpdate t lvl fuel k v = .ok t2 →
      ∀ q, lookupKey t2 lvl q = if q = k then some v else lookupKey t lvl q := by
  intro t
  induction t with
  | empty =>
    intro lvl fuel k v t2 h q
    simp only [tryUpdate] at h
    injection h with h
    subst h
    by_cases hq : q = k
    · subst hq; simp [lookupKey]
    · simp [lookupKey, hq, Ne.symm hq]
  | leaf k2 v2 =>
    intro lvl fuel k v t2 h q
    simp only [tryUpdate] at h
    by_cases hk : k2 = k
    · rw [if_pos hk] at h
      injection h with h
      subst h
      subst hk
      by_cases hq : q = k2
      · subst hq; simp [lookupKey]
      · simp [lookupKey, hq, Ne.symm hq]
    · rw [if_neg hk] at h
      rw [pushLeaf_lookup k k2 v v2 fuel lvl t2 h q]
      by_cases hq : q = k
      · simp [hq]
      · by_cases hq2 : q = k2
        · simp [lookupKey, hq, hq2]
        · simp [lookupKey, hq, hq2, Ne.symm hq2]
  | parent l r ihl ihr =>
    intro lvl fuel k v t2 h q
    cases fuel with
    | zero => exact Except.noConfusion h
    | succ fuel =>
      simp only [tryUpdate] at h
      by_cases hbk : keyBit k lvl
      · rw [if_pos hbk] at h
        obtain ⟨r2, hr2, hmap⟩ := except_map_ok h
        subst hmap
        have hq := ihr (lvl + 1) fuel k v r2 hr2 q
        by_cases hqb : keyBit q lvl
        · simp [lookupKey, hqb, hq]
        · have hqk : ¬ q = k := fun he => hqb (he ▸ hbk)
          simp [lookupKey, hqb, hqk]
      · rw [if_neg hbk] at h
        rw [Bool.not_eq_true] at hbk
        obtain ⟨l2, hl2, hmap⟩ := except_map_ok h
        subst hmap
        have hq := ihl (lvl + 1) fuel k v l2 hl2 q
        by_cases hqb : keyBit q lvl
        · have hqk : ¬ q = k := fun he => by rw [he, hbk] at hqb; exact Bool.noConfusion hqb
          simp [lookupKey, hqb, hqk]
        · simp [lookupKey, hqb, hq]

theorem tryUpdate_allKeysBit {V : Type} :
    ∀ (t : TNode V) (lvl fuel k : Nat) (v : V) (t2 : TNode V) (i : Nat) (b : Bool),
      allKeysBit t i b = true → keyBit k i = b →
      tryUpdate t lvl fuel k v = .ok t2 → allKeysBit t2 i b = true := by
  intro t
  induction t with
  | empty =>
    intro lvl fuel k v t2 i b _ hki h
    injection h with h
    subst h
    simp [allKeysBit, hki]
  | leaf k2 v2 =>
    intro lvl fuel k v t2 i b hall hki h
    simp only [tryUpdate] at h
    simp only [allKeysBit, beq_iff_eq] at hall
    by_cases hk : k2 = k
    · rw [if_pos hk] at h
      injection h with h
      subst h
      simp [allKeysBit, hki]
    · rw [if_neg hk] at h
      exact pushLeaf_allKeysBit k k2 v v2 fuel lvl t2 i b h hki hall
  | parent l r ihl ihr =>
    intro lvl fuel k v t2 i b hall hki h
    cases fuel with
    | zero => exact Except.noConfusion h
    | succ fuel =>
      simp only [tryUpdate] at h
      simp only [allKeysBit, Bool.and_eq_true] at hall
      by_cases hbk : keyBit k lvl
      · rw [if_pos hbk] at h
        obtain ⟨r2, hr2, hmap⟩ := except_map_ok h
        subst hmap
        simp only [allKeysBit, Bool.and_eq_true]
        exact ⟨hall.1, ihr (lvl + 1) fuel k v r2 i b hall.2 hki hr2⟩
      · rw [if_neg hbk] at h
        obtain ⟨l2, hl2, hmap⟩ := except_map_ok h
        subst hmap
        simp only [allKeysBit, Bool.and_eq_true]
        exact ⟨ihl (lvl + 1) fuel k v l2 i b hall.1 hki hl2, hall.2⟩

theorem tryUpdate_ne_empty {V : Type} :
    ∀ (t : TNode V) (lvl fuel k : Nat) (v : V) (t2 : TNode V),
      tryUpdate t lvl fuel k v = .ok t2 → t2 ≠ .empty := by
  intro t
  cases t with
  | empty =>
    intro lvl fuel k v t2 h
    injection h with h
    subst h
    exact fun he => TNode.noConfusion he
  | leaf k2 v2 =>
    intro lvl fuel k v t2 h
    simp only [tryUpdate] at h
    by_cases hk : k2 = k
    · rw [if_pos hk] at h
      injection h with h
      subst h
      exact fun he => TNode.noConfusion he
    · rw [if_neg hk] at h
      obtain ⟨a, b, hshape⟩ := pushLeaf_shape k k2 v v2 fuel lvl t2 h
      subst hshape
      exact fun he => TNode.noConfusion he
  | parent l r =>
    intro lvl fuel k v t2 h
    cases fuel with
    | zero => exact Except.noConfusion h
    | succ fuel =>
      simp only [tryUpdate] at h
      by_cases hbk : keyBit k lvl
      · rw [if_pos hbk] at h
        obtain ⟨r2, _, hmap⟩ := except_map_ok h
        subst hmap
        exact fun he => TNode.noConfusion he
      · rw [if_neg hbk] at h
        obtain ⟨l2, _, hmap⟩ := except_map_ok h
        subst hmap
        exact fun he => TNode.noConfusion he

theorem tryUpdate_parent_shape {V : Type} {l r : TNode V} {lvl fuel k : Nat} {v : V}
    {t2 : TNode V} (h : tryUpdate (.parent l r) lvl fuel k v = .ok t2) :
    ∃ a b, t2 = .parent a b := by
  cases fuel with
  | zero => exact Except.noConfusion h
  | succ fuel =>
    simp only [tryUpdate] at h
    by_cases hbk : keyBit k lvl
    · rw [if_pos hbk] at h
      obtain ⟨r2, _, hmap⟩ := except_map_ok h
      exact ⟨l, r2, hmap.symm⟩
    · rw [if_neg hbk] at h
      obtain ⟨l2, _, hmap⟩ := except_map_ok h
      exact ⟨l2, r, hmap.symm⟩

theorem tryUpdate_canon {V : Type} :
    ∀ (t : TNode V) (lvl fuel k : Nat) (v : V) (t2 : TNode V),
      canon t lvl = true → tryUpdate t lvl fuel k v = .ok t2 → canon t2 lvl = true := by
  intro t
  induction t with
  | empty =>
    intro lvl fuel k v t2 _ h
    injection h with h
    subst h
    rfl
  | leaf k2 v2 =>
    intro lvl fuel k v t2 _ h
    simp only [tryUpdate] at h
    by_cases hk : k2 = k
    · rw [if_pos hk] at h
      injection h with h
      subst h
      rfl
    · rw [if_neg hk] at h
      exact pushLeaf_canon k k2 v v2 fuel lvl t2 h
  | parent l r ihl ihr =>
    intro lvl fuel k v t2 hc h
    obtain ⟨hcp, hfl, hfr, hcl, hcr⟩ := canon_parent_parts hc
    cases fuel with
    | zero => exact Except.noConfusion h
    | succ fuel =>
      simp only [tryUpdate] at h
      by_cases hbk : keyBit k lvl
      · rw [if_pos hbk] at h
        obtain ⟨r2, hr2, hmap⟩ := except_map_ok h
        subst hmap
        refine canon_parent_build ?_ hfl
          (tryUpdate_allKeysBit r (lvl + 1) fuel k v r2 lvl true hfr hbk hr2) hcl
          (ihr (lvl + 1) fuel k v r2 hcr hr2)
        cases hr : r with
        | empty =>
          obtain ⟨a, b, hl⟩ := canonPair_empty_right (hr ▸ hcp)
          rw [hl]
          exact canonPair_left_parent a b r2
        | leaf k3 v3 =>
          have hlne : l ≠ .empty := by
            intro he
            rw [he, hr] at hcp
            exact Bool.noConfusion hcp
          exact canonPair_of_ne_empty hlne
            (tryUpdate_ne_empty r (lvl + 1) fuel k v r2 hr2)
        | parent a b =>
          obtain ⟨c, d, hshape⟩ := tryUpdate_parent_shape (hr ▸ hr2)
          rw [hshape]
          exact canonPair_right_parent l c d
      · rw [if_neg hbk] at h
        have hbkf : keyBit k lvl = false := by
          cases hkv : keyBit k lvl
          · rfl
          · exact absurd hkv hbk
        obtain ⟨l2, hl2, hmap⟩ := except_map_ok h
        subst hmap
        refine canon_parent_build ?_
          (tryUpdate_allKeysBit l (lvl + 1) fuel k v l2 lvl false hfl hbkf hl2) hfr
          (ihl (lvl + 1) fuel k v l2 hcl hl2) hcr
        cases hl : l with
        | empty =>
          obtain ⟨a, b, hrshape⟩ := canonPair_empty_left (hl ▸ hcp)
          rw [hrshape]
          exact canonPair_right_parent l2 a b
        | leaf k3 v3 =>
          have hrne : r ≠ .empty := by
            intro he
            rw [he, hl] at hcp
            exact Bool.noConfusion hcp
          exact canonPair_of_ne_empty
            (tryUpdate_ne_empty l (lvl + 1) fuel k v l2 hl2) hrne
        | parent a b =>
          obtain ⟨c, d, hshape⟩ := tryUpdate_parent_shape (hl ▸ hl2)
          rw [hshape]
          exact canonPair_left_parent c d r

/-! ### Trie lemmas: deletion and collapse -/

theorem collapse_lookup {V : Type} {l r : TNode V} {lvl : Nat}
    (hfl : allKeysBit l lvl false = true) (hfr : allKeysBit r lvl true = true) :
    ∀ q, lookupKey (collapseNode l r) lvl q = lookupKey (.parent l r) lvl q := by
  intro q
  cases l with
  | empty =>
    cases r with
    | empty => rfl
    | leaf k v =>
      have hkb : keyBit k lvl = true := by simpa [allKeysBit] using hfr
      by_cases hq : k = q
      · subst hq; simp [collapseNode, lookupKey, hkb]
      · cases hqv : keyBit q lvl <;> simp [collapseNode, lookupKey, hq, hqv]
    | parent a b => rfl
  | leaf k v =>
    cases r with
    | empty =>
      have hkb : keyBit k lvl = false := by simpa [allKeysBit] using hfl
      by_cases hq : k = q
      · subst hq; simp [collapseNode, lookupKey, hkb]
      · cases hqv : keyBit q lvl <;> simp [collapseNode, lookupKey, hq, hqv]
    | leaf _ _ => rfl
    | parent _ _ => rfl
  | parent a b => cases r <;> rfl

theorem collapse_allKeysBit {V : Type} {l r : TNode V} {i : Nat} {b : Bool}
    (hl : allKeysBit l i b = true) (hr : allKeysBit r i b = true) :
    allKeysBit (collapseNode l r) i b = true := by
  cases l <;> cases r <;> simp_all [collapseNode, allKeysBit]

theorem tryDelete_allKeysBit {V : Type} :
    ∀ (t : TNode V) (lvl fuel k : Nat) (t2 : TNode V) (i : Nat) (b : Bool),
      allKeysBit t i b = true → tryDelete t lvl fuel k = .ok t2 →
      allKeysBit t2 i b = true := by
  intro t
  induction t with
  | empty => intro lvl fuel k t2 i b _ h; exact Except.noConfusion h
  | leaf k2 v2 =>
    intro lvl fuel k t2 i b _ h
    simp only [tryDelete] at h
    by_cases hk : k2 = k
    · rw [if_pos hk] at h
      injection h with h
      subst h
      rfl
    · rw [if_neg hk] at h
      exact Except.noConfusion h
  | parent l r ihl ihr =>
    intro lvl fuel k t2 i b hall h
    cases fuel with
    | zero => exact Except.noConfusion h
    | succ fuel =>
      simp only [tryDelete] at h
      simp only [allKeysBit, Bool.and_eq_true] at hall
      by_cases hbk : keyBit k lvl
      · rw [if_pos hbk] at h
        obtain ⟨r2, hr2, hmap⟩ := except_map_ok h
        subst hmap
        exact collapse_allKeysBit hall.1 (ihr (lvl + 1) fuel k r2 i b hall.2 hr2)
      · rw [if_neg hbk] at h
        obtain ⟨l2, hl2, hmap⟩ := except_map_ok h
        subst hmap
        exact collapse_allKeysBit (ihl (lvl + 1) fuel k l2 i b hall.1 hl2) hall.2

theorem tryDelete_lookup {V : Type} :
    ∀ (t : TNode V) (lvl fuel k : Nat) (t2 : TNode V),
      canon t lvl = true → tryDelete t lvl fuel k = .ok t2 →
      ∀ q, lookupKey t2 lvl q = if q = k then none else lookupKey t lvl q := by
  intro t
  induction t with
  | empty => intro lvl fuel k t2 _ h; exact Except.noConfusion h
  | leaf k2 v2 =>
    intro lvl fuel k t2 _ h q
    simp only [tryDelete] at h
    by_cases hk : k2 = k
    · rw [if_pos hk] at h
      injection h with h
      subst h
      subst hk
      by_cases hq : q = k2
      · simp [lookupKey, hq]
      · simp [lookupKey, hq, Ne.symm hq]
    · rw [if_neg hk] at h
      exact Except.noConfusion h
  | parent l r ihl ihr =>
    intro lvl fuel k t2 hc h q
    obtain ⟨hcp, hfl, hfr, hcl, hcr⟩ := canon_parent_parts hc
    cases fuel with
    | zero => exact Except.noConfusion h
    | succ fuel =>
      simp only [tryDelete] at h
      by_cases hbk : keyBit k lvl
      · rw [if_pos hbk] at h
        obtain ⟨r2, hr2, hmap⟩ := except_map_ok h
        subst hmap
        rw [collapse_lookup hfl (tryDelete_allKeysBit r (lvl + 1) fuel k r2 lvl true hfr hr2) q]
        have hq := ihr (lvl + 1) fuel k r2 hcr hr2 q
        by_cases hqb : keyBit q lvl
        · simp [lookupKey, hqb, hq]
        · have hqk : ¬ q = k := fun he => hqb (he ▸ hbk)
          simp [lookupKey, hqb, hqk]
      · rw [if_neg hbk] at h
        have hbkf : keyBit k lvl = false := by
          cases hkv : keyBit k lvl
          · rfl
          · exact absurd hkv hbk
        obtain ⟨l2, hl2, hmap⟩ := except_map_ok h
        subst hmap
        rw [collapse_lookup (tryDelete_allKeysBit l (lvl + 1) fuel k l2 lvl false hfl hl2) hfr q]
        have hq := ihl (lvl + 1) fuel k l2 hcl hl2 q
        by_cases hqb : keyBit q lvl
        · have hqk : ¬ q = k := fun he => by
            rw [he, hbkf] at hqb
            exact Bool.noConfusion hqb
          simp [lookupKey, hqb, hqk]
        · simp [lookupKey, hqb, hq]

theorem tryDelete_parent_child_ne_empty {V : Type} {r : TNode V} {lvl fuel k : Nat}
    {r2 : TNode V} (hcr : canon r lvl = true) (hp : isParentNode r = true)
    (h : tryDelete r lvl fuel k = .ok r2) : r2 ≠ .empty := by
  obtain ⟨k1, v1, k2, v2, hne, h1, h2⟩ := canon_parent_two_keys r lvl hcr hp
  have hlook := tryDelete_lookup r lvl fuel k r2 hcr h
  by_cases hk1 : k1 = k
  · have hk2 : ¬ k2 = k := fun he => hne (hk1.trans he.symm)
    intro he
    have hl2 := hlook k2
    rw [he] at hl2
    simp [lookupKey, hk2, h2] at hl2
  · intro he
    have hl1 := hlook k1
    rw [he] at hl1
    simp [lookupKey, hk1, h1] at hl1

theorem collapse_canon {V : Type} {l r : TNode V} {lvl : Nat}
    (hfl : allKeysBit l lvl false = true) (hfr : allKeysBit r lvl true = true)
    (hcl : canon l (lvl + 1) = true) (hcr : canon r (lvl + 1) = true)
    (hne : ¬(l = .empty ∧ r = .empty)) : canon (collapseNode l r) lvl = true := by
  cases l with
  | empty =>
    cases r with
    | empty => exact absurd ⟨rfl, rfl⟩ hne
    | leaf _ _ => rfl
    | parent a b => exact canon_parent_build (canonPair_right_parent _ a b) hfl hfr hcl hcr
  | leaf k v =>
    cases r with
    | empty => rfl
    | leaf _ _ => exact canon_parent_build rfl hfl hfr hcl hcr
    | parent a b => exact canon_parent_build (canonPair_right_parent _ a b) hfl hfr hcl hcr
  | parent a b =>
    cases r <;> exact canon_parent_build (canonPair_left_parent a b _) hfl hfr hcl hcr

theorem tryDelete_canon {V : Type} :
    ∀ (t : TNode V) (lvl fuel k : Nat) (t2 : TNode V),
      canon t lvl = true → tryDelete t lvl fuel k = .ok t2 → canon t2 lvl = true := by
  intro t
  induction t with
  | empty => intro lvl fuel k t2 _ h; exact Except.noConfusion h
  | leaf k2 v2 =>
    intro lvl fuel k t2 _ h
    simp only [tryDelete] at h
    by_cases hk : k2 = k
    · rw [if_pos hk] at h
      injection h with h
      subst h
      rfl
    · rw [if_neg hk] at h
      exact Except.noConfusion h
  | parent l r ihl ihr =>
    intro lvl fuel k t2 hc h
    obtain ⟨hcp, hfl, hfr, hcl, hcr⟩ := canon_parent_parts hc
    cases fuel with
    | zero => exact Except.noConfusion h
    | succ fuel =>
      simp only [tryDelete] at h
      by_cases hbk : keyBit k lvl
      · rw [if_pos hbk] at h
        obtain ⟨r2, hr2, hmap⟩ := except_map_ok h
        subst hmap
        refine collapse_canon hfl
          (tryDelete_allKeysBit r (lvl + 1) fuel k r2 lvl true hfr hr2) hcl
          (ihr (lvl + 1) fuel k r2 hcr hr2) ?_
        rintro ⟨hel, her2⟩
        subst hel
        obtain ⟨a, b, hrp⟩ := canonPair_empty_left hcp
        exact tryDelete_parent_child_ne_empty hcr (by rw [hrp]; rfl) hr2 her2
      · rw [if_neg hbk] at h
        obtain ⟨l2, hl2, hmap⟩ := except_map_ok h
        subst hmap
        refine collapse_canon
          (tryDelete_allKeysBit l (lvl + 1) fuel k l2 lvl false hfl hl2) hfr
          (ihl (lvl + 1) fuel k l2 hcl hl2) hcr ?_
        rintro ⟨hel2, her⟩
        subst her
        obtain ⟨a, b, hlp⟩ := canonPair_empty_right hcp
        exact tryDelete_parent_child_ne_empty hcl (by rw [hlp]; rfl) hl2 hel2

/-! ### Trie lemmas: folding operation sequences -/

theorem except_pure_ok {ε α : Type} {a b : α} (h : (pure a : Except ε α) = .ok b) : a = b :=
  Except.ok.inj h

theorem updAssoc_congr {V : Type} :
    ∀ (ps : List (Nat × V)) (f g : Nat → Option V), (∀ x, f x = g x) →
      ∀ q, updAssoc f ps q = updAssoc g ps q := by
  intro ps
  induction ps with
  | nil => intro f g h q; exact h q
  | cons p ps ih =>
    intro f g h q
    simp only [updAssoc]
    exact ih _ _ (fun x => by by_cases hx : x = p.1 <;> simp [hx, h x]) q

theorem applyUpdates_lookup {V : Type} :
    ∀ (ps : List (Nat × V)) (maxLvl : Nat) (t t2 : TNode V),
      applyUpdates maxLvl t ps = .ok t2 →
      ∀ q, lookupKey t2 0 q = updAssoc (fun x => lookupKey t 0 x) ps q := by
  intro ps
  induction ps with
  | nil =>
    intro maxLvl t t2 h q
    simp only [applyUpdates, List.foldlM_nil] at h
    have he := except_pure_ok h
    subst he
    rfl
  | cons p ps ih =>
    intro maxLvl t t2 h q
    simp only [applyUpdates, List.foldlM_cons] at h
    obtain ⟨t1, ht1, hrest⟩ := except_bind_ok h
    have hq := ih maxLvl t1 t2 hrest q
    rw [hq]
    simp only [updAssoc]
    exact updAssoc_congr ps _ _
      (fun x => tryUpdate_lookup t 0 maxLvl p.1 p.2 t1 ht1 x) q

theorem applyUpdates_canon {V : Type} :
    ∀ (ps : List (Nat × V)) (maxLvl : Nat) (t t2 : TNode V),
      canon t 0 = true → applyUpdates maxLvl t ps = .ok t2 → canon t2 0 = true := by
  intro ps
  induction ps with
  | nil =>
    intro maxLvl t t2 hc h
    simp only [applyUpdates, List.foldlM_nil] at h
    have he := except_pure_ok h
    subst he
    exact hc
  | cons p ps ih =>
    intro maxLvl t t2 hc h
    simp only [applyUpdates, List.foldlM_cons] at h
    obtain ⟨t1, ht1, hrest⟩ := except_bind_ok h
    exact ih maxLvl t1 t2 (tryUpdate_canon t 0 maxLvl p.1 p.2 t1 hc ht1) hrest

theorem applyDeletes_lookup {V : Type} :
    ∀ (ks : List Nat) (maxLvl : Nat) (t t2 : TNode V),
      canon t 0 = true → applyDeletes maxLvl t ks = .ok t2 →
      canon t2 0 = true ∧
        ∀ q, lookupKey t2 0 q = if q ∈ ks then none else lookupKey t 0 q := by
  intro ks
  induction ks with
  | nil =>
    intro maxLvl t t2 hc h
    simp only [applyDeletes, List.foldlM_nil] at h
    have he := except_pure_ok h
    subst he
    exact ⟨hc, fun q => by simp⟩
  | cons k ks ih =>
    intro maxLvl t t2 hc h
    simp only [applyDeletes, List.foldlM_cons] at h
    obtain ⟨t1, ht1, hrest⟩ := except_bind_ok h
    have hc1 : canon t1 0 = true := tryDelete_canon t 0 maxLvl k t1 hc ht1
    obtain ⟨hc2, hlook⟩ := ih maxLvl t1 t2 hc1 hrest
    refine ⟨hc2, fun q => ?_⟩
    rw [hlook q, tryDelete_lookup t 0 maxLvl k t1 hc ht1 q]
    by_cases hqks : q ∈ ks
    · simp [hqks]
    · by_cases hqk : q = k
      · simp [hqks, hqk]
      · simp [hqks, hqk]

theorem applyOp_canon {V : Type} (maxLvl : Nat) (t t2 : TNode V) (op : TrieOp V)
    (hc : canon t 0 = true) (h : applyOp maxLvl t op = .ok t2) : canon t2 0 = true := by
  cases op with
  | ins k v => exact tryUpdate_canon t 0 maxLvl k v t2 hc h
  | del k => exact tryDelete_canon t 0 maxLvl k t2 hc h

theorem foldOps_canon {V : Type} :
    ∀ (ops : List (TrieOp V)) (maxLvl : Nat) (t t2 : TNode V),
      canon t 0 = true → ops.foldlM (applyOp maxLvl) t = .ok t2 → canon t2 0 = true := by
  intro ops
  induction ops with
  | nil =>
    intro maxLvl t t2 hc h
    rw [List.foldlM_nil] at h
    have he := except_pure_ok h
    subst he
    exact hc
  | cons op ops ih =>
    intro maxLvl t t2 hc h
    rw [List.foldlM_cons] at h
    obtain ⟨t1, ht1, hrest⟩ := except_bind_ok h
    exact ih maxLvl t1 t2 (applyOp_canon maxLvl t t1 op hc ht1) hrest

theorem applyOps_canon {V : Type} (ops : List (TrieOp V)) (maxLvl : Nat) (t2 : TNode V)
    (h : applyOps maxLvl ops = .ok t2) : canon t2 0 = true :=
  foldOps_canon ops maxLvl .empty t2 rfl h

theorem updAssoc_not_mem {V : Type} :
    ∀ (ps : List (Nat × V)) (f : Nat → Option V) (k : Nat), k ∉ ps.map Prod.fst →
      updAssoc f ps k = f k := by
  intro ps
  induction ps with
  | nil => intro f k _; rfl
  | cons p ps ih =>
    intro f k hk
    simp only [List.map_cons, List.mem_cons, not_or] at hk
    simp only [updAssoc]
    rw [ih _ k hk.2, if_neg hk.1]

theorem updAssoc_mem {V : Type} :
    ∀ (ps : List (Nat × V)) (f : Nat → Option V) (k : Nat) (v : V),
      (ps.map Prod.fst).Nodup → (k, v) ∈ ps → updAssoc f ps k = some v := by
  intro ps
  induction ps with
  | nil => intro f k v _ hm; exact absurd hm (List.not_mem_nil _)
  | cons p ps ih =>
    intro f k v hnd hm
    simp only [List.map_cons, List.nodup_cons] at hnd
    rcases List.mem_cons.1 hm with he | hm2
    · subst he
      simp only [updAssoc]
      rw [updAssoc_not_mem ps _ k hnd.1, if_pos rfl]
    · simp only [updAssoc]
      exact ih _ k v hnd.2 hm2

theorem updAssoc_perm {V : Type} (l1 l2 : List (Nat × V)) (hperm : l1.Perm l2)
    (hnd : (l1.map Prod.fst).Nodup) (f : Nat → Option V) (q : Nat) :
    updAssoc f l1 q = updAssoc f l2 q := by
  have hnd2 : (l2.map Prod.fst).Nodup := ((hperm.map Prod.fst).nodup_iff).1 hnd
  have key : ∀ (l : List (Nat × V)), (¬ ∃ v, (q, v) ∈ l) → q ∉ l.map Prod.fst := by
    intro l hnex hmem
    obtain ⟨p, hp, hpq⟩ := List.mem_map.1 hmem
    obtain ⟨a, b⟩ := p
    dsimp at hpq
    subst hpq
    exact hnex ⟨b, hp⟩
  by_cases hq : ∃ v, (q, v) ∈ l1
  · obtain ⟨v, hv⟩ := hq
    rw [updAssoc_mem l1 f q v hnd hv, updAssoc_mem l2 f q v hnd2 (hperm.mem_iff.1 hv)]
  · have hq2 : ¬ ∃ v, (q, v) ∈ l2 := fun ⟨v, hv⟩ => hq ⟨v, hperm.mem_iff.2 hv⟩
    rw [updAssoc_not_mem l1 f q (key l1 hq), updAssoc_not_mem l2 f q (key l2 hq2)]

/-! ### C1, C2, C6: claim theorems on the trie state machine -/

/-- C1: insertion order does not matter — building tries with the same
`maxLevels` from two permutations of one key-distinct `(key, value)` list
yields equal trees, hence identical root hashes under the installed hash
scheme; more generally any two successful operation traces from the empty
trie leaving the same live `(nodeKey, value)` set yield the same tree and
root hash. -/
theorem insertion_order_independent {V : Type} (maxLvl : Nat)
    (l1 l2 : List (Nat × V)) (ops1 ops2 : List (TrieOp V)) (t1 t2 u1 u2 : TNode V)
    (hperm : l1.Perm l2) (hnd : (l1.map Prod.fst).Nodup)
    (h1 : buildTrie maxLvl l1 = .ok t1) (h2 : buildTrie maxLvl l2 = .ok t2)
    (ho1 : applyOps maxLvl ops1 = .ok u1) (ho2 : applyOps maxLvl ops2 = .ok u2)
    (hsame : ∀ q, lookupKey u1 0 q = lookupKey u2 0 q)
    (hf : List Nat → Nat) (vh : V → Nat) :
    (t1 = t2 ∧ rootHash hf vh t1 = rootHash hf vh t2) ∧
      (u1 = u2 ∧ rootHash hf vh u1 = rootHash hf vh u2) := by
  have hc1 : canon t1 0 = true := applyUpdates_canon l1 maxLvl .empty t1 rfl h1
  have hc2 : canon t2 0 = true := applyUpdates_canon l2 maxLvl .empty t2 rfl h2
  have hlook : ∀ q, lookupKey t1 0 q = lookupKey t2 0 q := by
    intro q
    rw [applyUpdates_lookup l1 maxLvl .empty t1 h1 q,
      applyUpdates_lookup l2 maxLvl .empty t2 h2 q]
    exact updAssoc_perm l1 l2 hperm hnd _ q
  have ht : t1 = t2 := canon_ext t1 0 t2 hc1 hc2 hlook
  have hu : u1 = u2 :=
    canon_ext u1 0 u2 (applyOps_canon ops1 maxLvl u1 ho1)
      (applyOps_canon ops2 maxLvl u2 ho2) hsame
  exact ⟨⟨ht, by rw [ht]⟩, ⟨hu, by rw [hu]⟩⟩

/-- Witness for C1: the lists `[(1,11),(2,22)]` and `[(2,22),(1,11)]` build
the same concrete tree, and the traces `ins 1 5; ins 2 7; del 1` and
`ins 2 7` leave the same live set and the same tree. -/
theorem insertion_order_independent_witness :
    ((TNode.parent (TNode.leaf 2 22) (TNode.leaf 1 11) : TNode Nat) =
        TNode.parent (TNode.leaf 2 22) (TNode.leaf 1 11) ∧
      rootHash (fun xs => xs.foldl (· + ·) 0) id
          (TNode.parent (TNode.leaf 2 22) (TNode.leaf 1 11) : TNode Nat) =
        rootHash (fun xs => xs.foldl (· + ·) 0) id
          (TNode.parent (TNode.leaf 2 22) (TNode.leaf 1 11))) ∧
      ((TNode.leaf 2 7 : TNode Nat) = TNode.leaf 2 7 ∧
        rootHash (fun xs => xs.foldl (· + ·) 0) id (TNode.leaf 2 7 : TNode Nat) =
          rootHash (fun xs => xs.foldl (· + ·) 0) id (TNode.leaf 2 7)) :=
  insertion_order_independent 10 [(1, 11), (2, 22)] [(2, 22), (1, 11)]
    [.ins 1 5, .ins 2 7, .del 1] [.ins 2 7]
    (TNode.parent (TNode.leaf 2 22) (TNode.leaf 1 11))
    (TNode.parent (TNode.leaf 2 22) (TNode.leaf 1 11))
    (TNode.leaf 2 7) (TNode.leaf 2 7)
    (by decide) (by decide) (by decide) (by decide) (by decide) (by decide) (fun q => rfl)
    (fun xs => xs.foldl (· + ·) 0) id

/-- C2: deletion is equivalent to rebuilding — for a key-distinct list `S`,
any delete list `D` (any order), building from `S` and deleting `D` yields
the same tree and root hash as building afresh from `S` without the keys of
`D`; when `D` covers every key of `S` the result is the empty tree with root
`HashZero` (0). -/
theorem delete_rebuild_equivalence {V : Type} (maxLvl : Nat)
    (S : List (Nat × V)) (D : List Nat) (t1 t2 t3 : TNode V)
    (hnd : (S.map Prod.fst).Nodup)
    (h1 : buildTrie maxLvl S = .ok t1)
    (h2 : applyDeletes maxLvl t1 D = .ok t2)
    (h3 : buildTrie maxLvl (S.filter (fun p => decide (p.1 ∉ D))) = .ok t3)
    (hf : List Nat → Nat) (vh : V → Nat) :
    (t2 = t3 ∧ rootHash hf vh t2 = rootHash hf vh t3) ∧
      ((∀ p ∈ S, p.1 ∈ D) → (t2 = .empty ∧ rootHash hf vh t2 = 0)) := by
  have hc1 : canon t1 0 = true := applyUpdates_canon S maxLvl .empty t1 rfl h1
  obtain ⟨hc2, hlook2⟩ := applyDeletes_lookup D maxLvl t1 t2 hc1 h2
  have hc3 : canon t3 0 = true := applyUpdates_canon _ maxLvl .empty t3 rfl h3
  have hL1 : ∀ q, lookupKey t1 0 q = updAssoc (fun _ => none) S q := fun q =>
    applyUpdates_lookup S maxLvl .empty t1 h1 q
  have hL3 : ∀ q, lookupKey t3 0 q =
      updAssoc (fun _ => none) (S.filter (fun p => decide (p.1 ∉ D))) q := fun q =>
    applyUpdates_lookup _ maxLvl .empty t3 h3 q
  have hndF : ((S.filter (fun p => decide (p.1 ∉ D))).map Prod.fst).Nodup :=
    List.Nodup.sublist ((List.filter_sublist S).map Prod.fst) hnd
  have hmain : ∀ q, lookupKey t2 0 q = lookupKey t3 0 q := by
    intro q
    rw [hlook2 q, hL1 q, hL3 q]
    by_cases hqD : q ∈ D
    · rw [if_pos hqD, updAssoc_not_mem]
      intro hmem
      obtain ⟨p, hp, hpq⟩ := List.mem_map.1 hmem
      have hpD := (List.mem_filter.1 hp).2
      simp only [decide_eq_true_eq] at hpD
      exact (hpq ▸ hpD) hqD
    · rw [if_neg hqD]
      by_cases hqS : ∃ v, (q, v) ∈ S
      · obtain ⟨v, hv⟩ := hqS
        rw [updAssoc_mem S _ q v hnd hv, updAssoc_mem _ _ q v hndF
          (List.mem_filter.2 ⟨hv, by simpa using hqD⟩)]
      · have hnm : q ∉ S.map Prod.fst := by
          intro hmem
          obtain ⟨p, hp, hpq⟩ := List.mem_map.1 hmem
          obtain ⟨a, b⟩ := p
          dsimp at hpq
          subst hpq
          exact hqS ⟨b, hp⟩
        have hnmF : q ∉ (S.filter (fun p => decide (p.1 ∉ D))).map Prod.fst := by
          intro hmem
          obtain ⟨p, hp, hpq⟩ := List.mem_map.1 hmem
          exact hnm (List.mem_map.2 ⟨p, (List.mem_filter.1 hp).1, hpq⟩)
        rw [updAssoc_not_mem S _ q hnm, updAssoc_not_mem _ _ q hnmF]
  have ht23 : t2 = t3 := canon_ext t2 0 t3 hc2 hc3 hmain
  refine ⟨⟨ht23, by rw [ht23]⟩, ?_⟩
  intro hall
  have hnone : ∀ q, lookupKey t2 0 q = lookupKey (.empty : TNode V) 0 q := by
    intro q
    rw [hlook2 q, hL1 q]
    by_cases hqD : q ∈ D
    · rw [if_pos hqD]; rfl
    · rw [if_neg hqD, updAssoc_not_mem]
      · rfl
      · intro hmem
        obtain ⟨p, hp, hpq⟩ := List.mem_map.1 hmem
        exact hqD (hpq ▸ hall p hp)
  have ht2e : t2 = .empty := canon_ext t2 0 .empty hc2 rfl hnone
  exact ⟨ht2e, by rw [ht2e]; rfl⟩

/-- Witness for C2: build from `[(1,11),(2,22)]`, delete `[1,2]`; the
rebuild from the filtered list is the empty trie, and full deletion returns
the root to `HashZero`. -/
theorem delete_rebuild_equivalence_witness :
    ((TNode.empty : TNode Nat) = TNode.empty ∧
      rootHash (fun xs => xs.foldl (· * 3 + ·) 0) id (TNode.empty : TNode Nat) =
        rootHash (fun xs => xs.foldl (· * 3 + ·) 0) id (TNode.empty : TNode Nat)) ∧
      ((TNode.empty : TNode Nat) = TNode.empty ∧
        rootHash (fun xs => xs.foldl (· * 3 + ·) 0) id (TNode.empty : TNode Nat) = 0) := by
  have h := delete_rebuild_equivalence 10 [(1, 11), (2, 22)] [1, 2]
    (TNode.parent (TNode.leaf 2 22) (TNode.leaf 1 11)) TNode.empty TNode.empty
    (by decide) (by decide) (by decide) (by decide) (fun xs => xs.foldl (· * 3 + ·) 0) id
  exact ⟨h.1, h.2 (by decide)⟩

/-- C6: `AddWord` is insert-only — when `TryGet` on the key currently yields
a value it returns `ErrEntryIndexAlreadyExists` (producing no new trie state,
so the trie is unchanged), and otherwise it behaves exactly as `TryUpdate`
on the same key and value. -/
theorem addWord_insert_only {V : Type} (maxLvl : Nat) (t : TNode V) (k : Nat) (v w : V) :
    (tryGet t 0 maxLvl k = .ok w →
        addWord maxLvl t k v = .error .entryIndexAlreadyExists) ∧
      (∀ e, tryGet t 0 maxLvl k = .error e →
        addWord maxLvl t k v = tryUpdate t 0 maxLvl k v) := by
  constructor
  · intro h
    simp [addWord, h]
  · intro e h
    simp [addWord, h]

/-- Witness for C6 on a concrete two-leaf trie: adding present key 1 fails,
adding absent key 3 defers to `tryUpdate`. -/
theorem addWord_insert_only_witness :
    (addWord 10 (TNode.parent (TNode.leaf 2 22) (TNode.leaf 1 11)) 1 99
        = (.error .entryIndexAlreadyExists : Except TrieErr (TNode Nat))) ∧
      (addWord 10 (TNode.parent (TNode.leaf 2 22) (TNode.leaf 1 11)) 3 99
        = tryUpdate (TNode.parent (TNode.leaf 2 22) (TNode.leaf 1 11)) 0 10 3 99) :=
  ⟨(addWord_insert_only 10 (TNode.parent (TNode.leaf 2 22) (TNode.leaf 1 11)) 1 99 11).1 rfl,
   (addWord_insert_only 10 (TNode.parent (TNode.leaf 2 22) (TNode.leaf 1 11)) 3 99 11).2
      .keyNotFound rfl⟩

end ZkTrie
